import Mathlib

/-!
Verification of the update agent (`updog`): a shallow embedding of
`src/workspaces/updater/updog/src/main.rs` together with theorems that settle
the specification claims about it.

Conventions of the embedding:
* Rust `semver::Version` and `data_store_version::Version` become `SemVer` and
  `DVersion`, ordered lexicographically (the spec treats versions as
  `major.minor.patch`, totally ordered).
* A `BTreeMap` becomes the list of its entries in strictly increasing key
  order; the well-formedness predicates below record that invariant where a
  proof needs it.
* External collaborators (the signed repository, the LZ4 codec, the semver
  string parser) are parameters of the embedded functions: the repository is a
  partial map from target names to byte streams, the codec is a byte-stream
  transform, the parser is a partial function from strings to versions.
* Fallible Rust paths become `Except UpdogError` values; the while loop of
  `migration_targets` is step-indexed by explicit fuel, `none` meaning the
  loop has not finished within the given number of iterations.
* Timestamps (`DateTime<Utc>`) are modelled by their integer value
  (`.timestamp()`), which is the only observation the code makes of them
  besides ordering.
-/

/-- Model of `semver::Version` as used by the manifest: `major.minor.patch`. -/
structure SemVer where
  major : Nat
  minor : Nat
  patch : Nat
deriving DecidableEq, Repr

instance : LinearOrder SemVer where
  le a b := a.major < b.major ∨ (a.major = b.major ∧
    (a.minor < b.minor ∨ (a.minor = b.minor ∧ a.patch ≤ b.patch)))
  le_refl a := Or.inr ⟨rfl, Or.inr ⟨rfl, Nat.le_refl _⟩⟩
  le_trans a b c hab hbc := by
    obtain ⟨a1, a2, a3⟩ := a
    obtain ⟨b1, b2, b3⟩ := b
    obtain ⟨c1, c2, c3⟩ := c
    simp only at hab hbc ⊢
    omega
  le_antisymm a b hab hba := by
    obtain ⟨a1, a2, a3⟩ := a
    obtain ⟨b1, b2, b3⟩ := b
    simp only at hab hba
    simp only [SemVer.mk.injEq]
    omega
  le_total a b := by
    obtain ⟨a1, a2, a3⟩ := a
    obtain ⟨b1, b2, b3⟩ := b
    simp only
    omega
  decidableLE a b :=
    decidable_of_iff (a.major < b.major ∨ (a.major = b.major ∧
      (a.minor < b.minor ∨ (a.minor = b.minor ∧ a.patch ≤ b.patch)))) Iff.rfl

/-- Unfolding lemma for the `SemVer` order. -/
theorem semver_le_unfold (a b : SemVer) : a ≤ b ↔
    (a.major < b.major ∨ (a.major = b.major ∧
      (a.minor < b.minor ∨ (a.minor = b.minor ∧ a.patch ≤ b.patch)))) := Iff.rfl

/-- Model of `data_store_version::Version`: a two-component data-store version. -/
structure DVersion where
  major : Nat
  minor : Nat
deriving DecidableEq, Repr

instance : LinearOrder DVersion where
  le a b := a.major < b.major ∨ (a.major = b.major ∧ a.minor ≤ b.minor)
  le_refl a := Or.inr ⟨rfl, Nat.le_refl _⟩
  le_trans a b c hab hbc := by
    obtain ⟨a1, a2⟩ := a
    obtain ⟨b1, b2⟩ := b
    obtain ⟨c1, c2⟩ := c
    simp only at hab hbc ⊢
    omega
  le_antisymm a b hab hba := by
    obtain ⟨a1, a2⟩ := a
    obtain ⟨b1, b2⟩ := b
    simp only at hab hba
    simp only [DVersion.mk.injEq]
    omega
  le_total a b := by
    obtain ⟨a1, a2⟩ := a
    obtain ⟨b1, b2⟩ := b
    simp only
    omega
  decidableLE a b :=
    decidable_of_iff (a.major < b.major ∨ (a.major = b.major ∧ a.minor ≤ b.minor)) Iff.rfl

/-- Unfolding lemma for the `DVersion` order. -/
theorem dversion_le_unfold (a b : DVersion) : a ≤ b ↔
    (a.major < b.major ∨ (a.major = b.major ∧ a.minor ≤ b.minor)) := Iff.rfl

/-- The `MAX_SEED` constant from the source. -/
def MAX_SEED : Nat := 2048

/-- The compile-time `TARGET_ARCH` constant (fixed to one build architecture). -/
def TARGET_ARCH : String := "x86_64"

/-- Error taxonomy of the paths that the claims exercise (from `error.rs`
contexts used by `main.rs`). -/
inductive UpdogError where
  | MissingSeed
  | NoWave
  | MissingMigration (current target : DVersion)
  | TargetNotFound (target : String)
  | VersionIdParse
  | VersionIdNotFound
  | PartitionTableRead
  | PartitionTableWrite
deriving DecidableEq, Repr

/-- Decidable equality for `Except` results, for closed evaluations. -/
instance {ε α : Type} [DecidableEq ε] [DecidableEq α] :
    DecidableEq (Except ε α) := fun a b =>
  match a, b with
  | .ok x, .ok y => decidable_of_iff (x = y) (by simp)
  | .ok _, .error _ => isFalse (by simp)
  | .error _, .ok _ => isFalse (by simp)
  | .error x, .error y => decidable_of_iff (x = y) (by simp)

/-- Model of `struct Images`: the three image target names of one update. -/
structure Images where
  boot : String
  root : String
  hash : String
deriving DecidableEq, Repr

/-- Model of `struct Update`. `waves` is the `BTreeMap<u64, DateTime<Utc>>` as its
entry list in key order; times are integer timestamps. -/
structure Update where
  flavor : String
  arch : String
  version : SemVer
  max_version : SemVer
  waves : List (Nat × Int)
  images : Images
deriving DecidableEq, Repr

/-- Model of `struct Manifest`. `migrations` is the `BTreeMap<(DVersion, DVersion),
Vec<String>>` as its entry list; `datastore_versions` likewise. -/
structure Manifest where
  updates : List Update
  migrations : List ((DVersion × DVersion) × List String)
  datastore_versions : List (SemVer × DVersion)
deriving DecidableEq, Repr

/-- Model of `struct Config` (only the field the claims touch matters here; the URLs
are opaque). -/
structure Config where
  metadata_base_url : String
  target_base_url : String
  seed : Option Nat
deriving DecidableEq, Repr

/-- The `BTreeMap` well-formedness invariant for the wave map: entries in strictly
increasing key order. -/
def WavesWF (waves : List (Nat × Int)) : Prop :=
  waves.Pairwise (fun a b => a.1 < b.1)

instance (waves : List (Nat × Int)) : Decidable (WavesWF waves) := by
  unfold WavesWF; infer_instance

/-- Model of `Update::update_ready`.  `self.waves.range((Included(0), Included(seed)))`
is, on the sorted entry list, the sublist of entries with key `≤ seed` (every
`u64` key is `≥ 0`); `.last()` is its last element, and `.iter().last()` the
last entry of the whole map. -/
def Update.update_ready (u : Update) (config : Config) (now : Int) :
    Except UpdogError Bool :=
  match config.seed with
  | some seed =>
    match (u.waves.filter (fun p => p.1 ≤ seed)).getLast? with
    | some (_, wave) => .ok (wave ≤ now)
    | none =>
      match u.waves.getLast? with
      | some (_, wave) => .ok (wave ≤ now)
      | none => .error .NoWave
  | none => .error .MissingSeed

/-- The `(i64 as u64)` cast used on the timestamp difference in
`Update::jitter`: two's-complement wrap into `[0, 2^64)`. -/
def u64_of_i64 (x : Int) : Nat := (x % (2 ^ 64 : Int)).toNat

/-- Model of `Update::jitter`.  `prev` is the last entry with key `≤ seed`; `next` the
first entry with `seed < key < MAX_SEED` (both bounds excluded).  When both
exist and `now` is before `next`'s time, the result is the `u64` cast of the
timestamp difference. -/
def Update.jitter (u : Update) (config : Config) (now : Int) : Option Nat :=
  match config.seed with
  | some seed =>
    let prev := (u.waves.filter (fun p => p.1 ≤ seed)).getLast?
    let next := (u.waves.filter (fun p => seed < p.1 ∧ p.1 < MAX_SEED)).head?
    match prev, next with
    | some (_, start), some (_, stop) =>
      if now < stop then some (u64_of_i64 (stop - start)) else none
    | _, _ => none
  | none => none

/-- Model of `update_required`: filter by flavor, architecture and self-consistency
(`version <= max_version`); with a forced version, find that exact version;
otherwise sort descending by `version` (the Rust sort is unstable, but the
versions relevant to the claims make the result tie-insensitive) and return
the first update with `current < version` or `current > max_version`. -/
def update_required (manifest : Manifest) (version : SemVer) (flavor : String)
    (force_version : Option SemVer) : Option Update :=
  let updates := manifest.updates.filter
    (fun u => u.flavor = flavor ∧ u.arch = TARGET_ARCH ∧ u.version ≤ u.max_version)
  match force_version with
  | some forced => updates.find? (fun u => u.version = forced)
  | none =>
    let sorted := updates.insertionSort (fun a b => b.version ≤ a.version)
    sorted.find? (fun u => version < u.version ∨ u.max_version < version)

/-- Model of `write_target_to_disk`: read the named target from the repository (an
abstract map from target names to delivered byte streams), wrap the stream in
the LZ4 streaming decoder (an abstract byte-stream transform `lz4`), and the
bytes that reach the destination are the decoder's output.  The decoder wrap
happens for every target, unconditionally. -/
def write_target_to_disk (lz4 : List Nat → List Nat)
    (repo : String → Option (List Nat)) (target : String) :
    Except UpdogError (List Nat) :=
  match repo target with
  | none => .error (.TargetNotFound target)
  | some bytes => .ok (lz4 bytes)

/-- One step of `migration_targets`' while loop (`fuel` is the remaining
number of loop iterations; `none` means the loop is still running when the
fuel runs out).  Each iteration filters the map entries whose key is
`(version, t)` with `t ≤ to`, sorts the hits descending by `t` and follows
the first one, extending the accumulated artifact list; with no hit it fails
with the missing-migration error naming the current and target versions. -/
def migration_targets_loop (m : Manifest) (to_v : DVersion) :
    Nat → DVersion → List String → Option (Except UpdogError (List String))
  | 0, _, _ => none
  | fuel + 1, version, targets =>
    if version = to_v then some (.ok targets)
    else
      let migrations := m.migrations.filter
        (fun e => e.1.1 = version ∧ e.1.2 ≤ to_v)
      let sorted := migrations.insertionSort (fun a b => b.1.2 ≤ a.1.2)
      match sorted.head? with
      | some transition =>
        migration_targets_loop m to_v fuel transition.1.2 (targets ++ transition.2)
      | none => some (.error (.MissingMigration version to_v))

/-- Model of `migration_targets(from, to, manifest)`, step-indexed. -/
def migration_targets (fuel : Nat) (from_v to_v : DVersion) (m : Manifest) :
    Option (Except UpdogError (List String)) :=
  migration_targets_loop m to_v fuel from_v []

/-- The planner invocation made by `retrieve_migrations`: it always walks
from `min` to `max` of the current and target data-store versions
(`let target = max(..); let start = min(..)`). -/
def planned_migrations (fuel : Nat) (current target : DVersion) (m : Manifest) :
    Option (Except UpdogError (List String)) :=
  migration_targets fuel (min current target) (max current target) m

/-- The migration walk as the specification describes it, for comparison
with `migration_targets_loop`: starting at `version`, repeatedly consider all
edges `(version, t)` with `t ≤ to_v`, follow the edge whose `t` is greatest
(`List.argmax`), prepend that edge's artifact list, stop at `to_v`, and fail
with the missing-migration error when no edge qualifies.  Step-indexed by the
same fuel. -/
def migration_walk (m : Manifest) (to_v : DVersion) :
    Nat → DVersion → Option (Except UpdogError (List String))
  | 0, _ => none
  | fuel + 1, version =>
    if version = to_v then some (.ok [])
    else
      let candidates := m.migrations.filter
        (fun e => e.1.1 = version ∧ e.1.2 ≤ to_v)
      match candidates.argmax (fun e => e.1.2) with
      | some transition =>
        (migration_walk m to_v fuel transition.1.2).map
          (fun r => r.map (fun rest => transition.2 ++ rest))
      | none => some (.error (.MissingMigration version to_v))

/-- A text line of the OS release file, as its character sequence (the
embedding works on `List Char` so that every operation is structurally
recursive). -/
abbrev Line := List Char

/-- ASCII whitespace, for the model of `str::trim`. -/
def isSpaceChar (c : Char) : Bool := c = ' ' ∨ c = '\t' ∨ c = '\n' ∨ c = '\r'

/-- Model of `str::trim`: strip whitespace from both ends of a line. -/
def trimChars (l : Line) : Line :=
  ((l.dropWhile isSpaceChar).reverse.dropWhile isSpaceChar).reverse

/-- The `VERSION_ID=` key. -/
def versionKey : Line := "VERSION_ID=".toList

/-- The `VARIANT_ID=` key. -/
def variantKey : Line := "VARIANT_ID=".toList

/-- The loop of `running_version` over the lines of the OS release file.
State `(version, flavor)` mirrors the two `Option` locals: while `version`
is `None` only `VERSION_ID=` lines are inspected; once it is `Some`, only
`VARIANT_ID=` lines are inspected; once both are `Some` the loop breaks.
`parseV` stands for the external `Version::parse`; `line[key.len()..]` is
`line.drop key.length`. -/
def running_version_loop (parseV : Line → Option SemVer) :
    List Line → Option SemVer → Option Line →
    Except UpdogError (Option SemVer × Option Line)
  | [], version, flavor => .ok (version, flavor)
  | line :: rest, version, flavor =>
    let line := trimChars line
    match version with
    | none =>
      if versionKey.isPrefixOf line then
        match parseV (line.drop versionKey.length) with
        | some v => running_version_loop parseV rest (some v) flavor
        | none => .error .VersionIdParse
      else
        running_version_loop parseV rest none flavor
    | some _ =>
      match flavor with
      | none =>
        if variantKey.isPrefixOf line then
          running_version_loop parseV rest version (some (line.drop variantKey.length))
        else
          running_version_loop parseV rest version none
      | some _ => .ok (version, flavor)

/-- Model of `running_version`, over the lines of `/etc/os-release`. -/
def running_version (parseV : Line → Option SemVer) (lines : List Line) :
    Except UpdogError (SemVer × Line) :=
  match running_version_loop parseV lines none none with
  | .error e => .error e
  | .ok (some v, some f) => .ok (v, f)
  | .ok _ => .error .VersionIdNotFound

/-- Split a line at `.` separators. -/
def splitOnDot : Line → List Line
  | [] => [[]]
  | c :: rest =>
    if c = '.' then [] :: splitOnDot rest
    else
      match splitOnDot rest with
      | h :: t => (c :: h) :: t
      | [] => [[c]]

/-- The numeric value of a decimal digit. -/
def digitVal (c : Char) : Option Nat :=
  if 48 ≤ c.toNat ∧ c.toNat ≤ 57 then some (c.toNat - 48) else none

/-- A non-empty all-digit component's value. -/
def digitsToNat : Line → Option Nat
  | [] => none
  | l => l.foldl (fun acc c => match acc, digitVal c with
      | some n, some d => some (n * 10 + d)
      | _, _ => none) (some 0)

/-- A concrete model of the external `Version::parse` for closed evaluations:
accepts exactly `<major>.<minor>.<patch>` with numeric components. -/
def parseSemVer (s : Line) : Option SemVer :=
  match (splitOnDot s).map digitsToNat with
  | [some a, some b, some c] => some ⟨a, b, c⟩
  | _ => none

/-- A/B partition slots of the inactive set. -/
inductive PartSlot where
  | root
  | boot
  | hash
deriving DecidableEq, Repr

/-- Observable effects of `update_image`, in program order. -/
inductive Event where
  | sleep
  | persistPartitionTable
  | writePartition (slot : PartSlot) (bytes : List Nat)
deriving DecidableEq, Repr

/-- The jitter sleep performed at the top of `update_image` when a jitter
value is present. -/
def jitterEvents (jitter : Option Nat) : List Event :=
  match jitter with
  | some _ => [.sleep]
  | none => []

/-- Model of `update_image` as its trace of effects plus outcome.  The external
boot-slot writer is modelled by the two flags `loadOk` (`State::load`) and
`persistOk` (`gpt_state.write()` after `clear_inactive`), the `fs::copy` of
the staged root image by `copyOk`, and `root_path` carries the staged
temporary file's bytes when `update_prepare` produced one.  The order of the
emitted events is the order of the corresponding statements in the source:
sleep, persist the cleared boot-selection state, then write root, boot, hash
to the inactive set, stopping at the first failure. -/
def update_image (lz4 : List Nat → List Nat) (repo : String → Option (List Nat))
    (u : Update) (jitter : Option Nat) (root_path : Option (List Nat))
    (copyOk loadOk persistOk : Bool) : List Event × Option UpdogError :=
  let pre := jitterEvents jitter
  if loadOk = false then (pre, some .PartitionTableRead)
  else if persistOk = false then (pre, some .PartitionTableWrite)
  else
    let t0 := pre ++ [Event.persistPartitionTable]
    let rootWrite : Except UpdogError (List Nat) :=
      match root_path with
      | some staged =>
        if copyOk then .ok staged
        else write_target_to_disk lz4 repo u.images.root
      | none => write_target_to_disk lz4 repo u.images.root
    match rootWrite with
    | .error e => (t0, some e)
    | .ok rootBytes =>
      let t1 := t0 ++ [Event.writePartition .root rootBytes]
      match write_target_to_disk lz4 repo u.images.boot with
      | .error e => (t1, some e)
      | .ok bootBytes =>
        let t2 := t1 ++ [Event.writePartition .boot bootBytes]
        match write_target_to_disk lz4 repo u.images.hash with
        | .error e => (t2, some e)
        | .ok hashBytes => (t2 ++ [Event.writePartition .hash hashBytes], none)

/-- The behavior of `running_version` as the amended specification describes it: trim every
line, take the version from the first `VERSION_ID=` line, then the variant
from the first `VARIANT_ID=` line occurring after it (earlier `VARIANT_ID=`
lines are ignored), failing when either is not found. -/
def running_version_amended (parseV : Line → Option SemVer)
    (lines : List Line) : Except UpdogError (SemVer × Line) :=
  match (lines.map trimChars).dropWhile (fun l => !versionKey.isPrefixOf l) with
  | [] => .error .VersionIdNotFound
  | vline :: rest =>
    match parseV (vline.drop versionKey.length) with
    | none => .error .VersionIdParse
    | some v =>
      match rest.find? (fun l => variantKey.isPrefixOf l) with
      | none => .error .VersionIdNotFound
      | some fline => .ok (v, fline.drop variantKey.length)

/-- The `BTreeMap` well-formedness invariant for the migration map: its keys are pairwise
distinct (entry order in a `BTreeMap` is also sorted, but key distinctness is
the only part the proofs need). -/
def MigrationsWF (m : Manifest) : Prop :=
  (m.migrations.map Prod.fst).Pairwise (fun a b => a ≠ b)

instance (m : Manifest) : Decidable (MigrationsWF m) := by
  unfold MigrationsWF; infer_instance

/-! Concrete instances used to evaluate the definitions on closed inputs. -/

/-- A concrete (deliberately non-identity) instance of the abstract LZ4
decoder, for closed evaluations. -/
def lz4c : List Nat → List Nat := fun _ => [0]

/-- A concrete repository delivering three image targets. -/
def repoc : String → Option (List Nat) := fun t =>
  if t = "boot-tgt" then some [1, 2]
  else if t = "root-tgt" then some [3]
  else if t = "hash-tgt" then some [4]
  else none

/-- Target names of the concrete update. -/
def imagesc : Images := ⟨"boot-tgt", "root-tgt", "hash-tgt"⟩

/-- A concrete update with no waves (selection and image-write tests). -/
def updatec : Update := ⟨"aws-k8s", "x86_64", ⟨1, 1, 0⟩, ⟨1, 1, 0⟩, [], imagesc⟩

/-- Wave map for the readiness witness: an open wave at key 0 and a later
one at key 1024. -/
def updateWaves : Update :=
  ⟨"aws-k8s", "x86_64", ⟨1, 0, 0⟩, ⟨1, 1, 0⟩, [(0, 5), (1024, 100)], imagesc⟩

/-- Config with seed 3. -/
def configSeed3 : Config := ⟨"m", "t", some 3⟩

/-- Config with seed 50. -/
def configSeed50 : Config := ⟨"m", "t", some 50⟩

/-- Two waves with equal activation times: the jitter between them is 0. -/
def updateJitter0 : Update :=
  ⟨"aws-k8s", "x86_64", ⟨1, 0, 0⟩, ⟨1, 1, 0⟩, [(0, 10), (100, 10)], imagesc⟩

/-- Two waves 10 seconds apart. -/
def updateJitter10 : Update :=
  ⟨"aws-k8s", "x86_64", ⟨1, 0, 0⟩, ⟨1, 1, 0⟩, [(0, 10), (100, 20)], imagesc⟩

/-- A manifest with the single migration edge `(1.0, 1.1) -> ["m"]`. -/
def manifestMig : Manifest := ⟨[], [((⟨1, 0⟩, ⟨1, 1⟩), ["m"])], []⟩

/-- Two selection candidates below their shared ceiling `1.20.0`. -/
def updSel15 : Update := ⟨"aws", "x86_64", ⟨1, 15, 0⟩, ⟨1, 20, 0⟩, [], imagesc⟩

/-- Second candidate, older version. -/
def updSel13 : Update := ⟨"aws", "x86_64", ⟨1, 13, 0⟩, ⟨1, 20, 0⟩, [], imagesc⟩

/-- Manifest exercising the selection maximum. -/
def manifestSel : Manifest := ⟨[updSel13, updSel15], [], []⟩

/-- A candidate capped at `1.20.0` whose own version respects the cap. -/
def updCap : Update := ⟨"thar-aws-eks", "x86_64", ⟨1, 20, 0⟩, ⟨1, 20, 0⟩, [], imagesc⟩

/-- Manifest where every candidate's `max_version` is `1.20.0` and no
candidate's version exceeds `1.25.0`. -/
def manifestCap : Manifest := ⟨[updCap], [], []⟩

/-- The regret shape: the sole candidate's version `1.25.0` exceeds its own
`max_version` `1.20.0`. -/
def updRegret : Update := ⟨"thar-aws-eks", "x86_64", ⟨1, 25, 0⟩, ⟨1, 20, 0⟩, [], imagesc⟩

/-- Manifest of the regret shape. -/
def manifestRegret : Manifest := ⟨[updRegret], [], []⟩

/-- OS release lines with `VARIANT_ID=` before `VERSION_ID=`. -/
def osReleaseSwapped : List Line := ["VARIANT_ID=aws".toList, "VERSION_ID=1.0.0".toList]

/-- The same OS release lines in the order the code expects. -/
def osReleaseInOrder : List Line := ["VERSION_ID=1.0.0".toList, "VARIANT_ID=aws".toList]

/-! General lemmas about sorted entry lists (the `BTreeMap` invariant). -/

/-- In a strictly key-sorted entry list the key determines the entry. -/
theorem sorted_key_inj {l : List (Nat × Int)}
    (h : l.Pairwise (fun a b => a.1 < b.1)) :
    ∀ x ∈ l, ∀ y ∈ l, x.1 = y.1 → x = y := by
  induction l with
  | nil => intro x hx; simp at hx
  | cons a t ih =>
    rcases List.pairwise_cons.mp h with ⟨ha, ht⟩
    intro x hx y hy hxy
    rcases List.mem_cons.mp hx with rfl | hx' <;>
      rcases List.mem_cons.mp hy with rfl | hy'
    · rfl
    · exact absurd hxy (Nat.ne_of_lt (ha y hy'))
    · exact absurd hxy.symm (Nat.ne_of_lt (ha x hx'))
    · exact ih ht x hx' y hy' hxy

/-- The last entry of a strictly key-sorted list is the one with the
greatest key. -/
theorem getLast_sorted_max {l : List (Nat × Int)}
    (h : l.Pairwise (fun a b => a.1 < b.1)) {e : Nat × Int}
    (he : l.getLast? = some e) : e ∈ l ∧ ∀ x ∈ l, x.1 ≤ e.1 := by
  induction l with
  | nil => simp at he
  | cons a t ih =>
    rcases List.pairwise_cons.mp h with ⟨ha, ht⟩
    cases t with
    | nil =>
      simp only [List.getLast?_singleton, Option.some.injEq] at he
      subst he
      exact ⟨List.mem_singleton_self _, by intro x hx; simp at hx; simp [hx]⟩
    | cons b t' =>
      rw [List.getLast?_cons_cons] at he
      rcases ih ht he with ⟨hmem, hmax⟩
      refine ⟨List.mem_cons_of_mem _ hmem, ?_⟩
      intro x hx
      rcases List.mem_cons.mp hx with rfl | hx'
      · exact Nat.le_of_lt (Nat.lt_of_lt_of_le (ha e hmem) (Nat.le_refl _))
      · exact hmax x hx'

/-- On a strictly key-sorted list, filtering for keys `≤ s` is taking the
longest prefix of such keys. -/
theorem filter_le_eq_takeWhile (s : Nat) :
    ∀ (l : List (Nat × Int)), l.Pairwise (fun a b => a.1 < b.1) →
      l.filter (fun p => p.1 ≤ s) = l.takeWhile (fun p => p.1 ≤ s) := by
  intro l
  induction l with
  | nil => intro _; rfl
  | cons a t ih =>
    intro h
    rcases List.pairwise_cons.mp h with ⟨ha, ht⟩
    by_cases hle : a.1 ≤ s
    · simp [List.filter_cons, List.takeWhile_cons, hle, ih ht]
    · simp [List.filter_cons, List.takeWhile_cons, hle]
      intro k v hx
      have := ha (k, v) hx
      omega

/-- On a strictly key-sorted list, filtering for keys `> s` is dropping the
prefix of keys `≤ s`. -/
theorem filter_gt_eq_dropWhile (s : Nat) :
    ∀ (l : List (Nat × Int)), l.Pairwise (fun a b => a.1 < b.1) →
      l.filter (fun p => s < p.1) = l.dropWhile (fun p => p.1 ≤ s) := by
  intro l
  induction l with
  | nil => intro _; rfl
  | cons a t ih =>
    intro h
    rcases List.pairwise_cons.mp h with ⟨ha, ht⟩
    by_cases hle : a.1 ≤ s
    · have hns : ¬ s < a.1 := by omega
      simp [List.filter_cons, List.dropWhile_cons, hle, hns, ih ht]
    · have hgt : s < a.1 := by omega
      simp [List.filter_cons, List.dropWhile_cons, hle, hgt]
      intro k v hx
      have := ha (k, v) hx
      omega

/-- A `find?` over a list sorted descending by `f` returns an element that is
`f`-maximal among all elements satisfying the predicate. -/
theorem find_desc_max {α : Type} {β : Type} [LinearOrder β] (f : α → β)
    (p : α → Bool) :
    ∀ (l : List α), l.Pairwise (fun a b => f b ≤ f a) → ∀ {r : α},
      l.find? p = some r →
      r ∈ l ∧ p r = true ∧ ∀ x ∈ l, p x = true → f x ≤ f r := by
  intro l
  induction l with
  | nil => intro _ r hr; simp at hr
  | cons a t ih =>
    intro h r hr
    rcases List.pairwise_cons.mp h with ⟨ha, ht⟩
    by_cases hpa : p a = true
    · rw [List.find?_cons_of_pos _ hpa] at hr
      injection hr with hr
      subst hr
      refine ⟨List.mem_cons_self _ _, hpa, ?_⟩
      intro x hx _
      rcases List.mem_cons.mp hx with rfl | hx'
      · exact le_refl _
      · exact ha x hx'
    · rw [List.find?_cons_of_neg _ hpa] at hr
      rcases ih ht hr with ⟨hmem, hpr, hmax⟩
      refine ⟨List.mem_cons_of_mem _ hmem, hpr, ?_⟩
      intro x hx hpx
      rcases List.mem_cons.mp hx with rfl | hx'
      · exact absurd hpx hpa
      · exact hmax x hx' hpx

/-- The head of a list sorted descending by an injective measure `f` is its
`argmax`. -/
theorem head_sort_eq_argmax {α : Type} (f : α → DVersion) (l : List α)
    (hinj : ∀ a ∈ l, ∀ b ∈ l, f a = f b → a = b) :
    (l.insertionSort (fun a b => f b ≤ f a)).head? = l.argmax f := by
  haveI htot : IsTotal α (fun a b => f b ≤ f a) :=
    ⟨fun a b => (le_total (f a) (f b)).symm⟩
  haveI htr : IsTrans α (fun a b => f b ≤ f a) :=
    ⟨fun _ _ _ hab hbc => le_trans hbc hab⟩
  cases hs : (l.insertionSort (fun a b => f b ≤ f a)).head? with
  | none =>
    rw [List.head?_eq_none_iff] at hs
    have hl : l = [] := by
      have hperm := List.perm_insertionSort (fun a b => f b ≤ f a) l
      rw [hs] at hperm
      exact (List.nil_perm.mp hperm)
    subst hl
    simp
  | some h =>
    rcases List.head?_eq_some_iff.mp hs with ⟨t, hsort⟩
    have hhl : h ∈ l := by
      rw [← List.mem_insertionSort (fun a b => f b ≤ f a) (l := l)]
      rw [hsort]
      exact List.mem_cons_self _ _
    have hsorted := List.sorted_insertionSort (fun a b => f b ≤ f a) l
    rw [hsort] at hsorted
    have hmax : ∀ x ∈ l, f x ≤ f h := by
      intro x hx
      rw [← List.mem_insertionSort (fun a b => f b ≤ f a) (l := l), hsort] at hx
      rcases List.mem_cons.mp hx with rfl | hx'
      · exact le_refl _
      · exact (List.pairwise_cons.mp hsorted).1 x hx'
    have hne : l ≠ [] := by
      intro hcon
      subst hcon
      simp at hhl
    cases hm : l.argmax f with
    | none => exact absurd (List.argmax_eq_none.mp hm) hne
    | some m =>
      have hmem : m ∈ l := List.argmax_mem hm
      have h1 : f h ≤ f m := List.le_of_mem_argmax hhl hm
      have h2 : f m ≤ f h := hmax m hmem
      have : m = h := hinj m hmem h hhl (le_antisymm h2 h1)
      rw [this]

/-- The count `countP` is strictly monotone from `p` to `q` when `p` implies `q`
pointwise and some member separates them. -/
theorem countP_lt_countP {α : Type} (l : List α) (p q : α → Bool)
    (hpq : ∀ x ∈ l, p x = true → q x = true) (e : α) (he : e ∈ l)
    (hqe : q e = true) (hpe : ¬ p e = true) : l.countP p < l.countP q := by
  induction l with
  | nil => simp at he
  | cons a t ih =>
    rcases List.mem_cons.mp he with rfl | he'
    · have hmono : t.countP p ≤ t.countP q :=
        List.countP_mono_left (fun x hx => hpq x (List.mem_cons_of_mem _ hx))
      simp only [List.countP_cons]
      have hp : p e = false := by
        revert hpe
        cases p e <;> simp
      rw [hp, hqe]
      simp
      omega
    · have := ih (fun x hx => hpq x (List.mem_cons_of_mem _ hx)) he'
      simp only [List.countP_cons]
      have hif : (if p a = true then 1 else 0) ≤ (if q a = true then 1 else 0) := by
        by_cases hpa : p a = true
        · rw [if_pos hpa, if_pos (hpq a (List.mem_cons_self _ _) hpa)]
        · rw [if_neg hpa]
          omega
      omega

/-- In a list whose images under `f` are pairwise distinct, `f` determines
the element. -/
theorem pairwise_key_inj {α β : Type} (f : α → β) :
    ∀ {l : List α}, l.Pairwise (fun x y => f x ≠ f y) →
      ∀ a ∈ l, ∀ b ∈ l, f a = f b → a = b := by
  intro l
  induction l with
  | nil => intro _ a ha; simp at ha
  | cons c t ih =>
    intro h a ha b hb hab
    rcases List.pairwise_cons.mp h with ⟨hc, ht⟩
    rcases List.mem_cons.mp ha with rfl | ha' <;>
      rcases List.mem_cons.mp hb with rfl | hb'
    · rfl
    · exact absurd hab (hc b hb')
    · exact absurd hab.symm (hc a ha')
    · exact ih ht a ha' b hb' hab

/-- Accumulator elimination plus selection-by-maximum: the while loop of
`migration_targets` computes exactly the specification's walk. -/
theorem migration_loop_eq_walk (m : Manifest) (hwf : MigrationsWF m)
    (to_v : DVersion) :
    ∀ (fuel : Nat) (v : DVersion) (acc : List String),
      migration_targets_loop m to_v fuel v acc =
        (migration_walk m to_v fuel v).map
          (fun r => r.map (fun rest => acc ++ rest)) := by
  intro fuel
  induction fuel with
  | zero => intro v acc; rfl
  | succ n ih =>
    intro v acc
    by_cases hv : v = to_v
    · subst hv
      simp [migration_targets_loop, migration_walk, Except.map]
    · have hpair : m.migrations.Pairwise (fun x y => x.1 ≠ y.1) := by
        have := hwf
        unfold MigrationsWF at this
        exact (List.pairwise_map.mp this)
      have hinj : ∀ a ∈ m.migrations.filter (fun e => e.1.1 = v ∧ e.1.2 ≤ to_v),
          ∀ b ∈ m.migrations.filter (fun e => e.1.1 = v ∧ e.1.2 ≤ to_v),
          (fun (e : (DVersion × DVersion) × List String) => e.1.2) a =
            (fun (e : (DVersion × DVersion) × List String) => e.1.2) b →
          a = b := by
        intro a ha b hb hab
        rcases List.mem_filter.mp ha with ⟨ham, hap⟩
        rcases List.mem_filter.mp hb with ⟨hbm, hbp⟩
        simp only [decide_eq_true_eq] at hap hbp
        have hkey : a.1 = b.1 := by
          have h1 : a.1.1 = v := hap.1
          have h2 : b.1.1 = v := hbp.1
          exact Prod.ext (h1.trans h2.symm) hab
        exact pairwise_key_inj Prod.fst hpair a ham b hbm hkey
      have hhead := head_sort_eq_argmax
        (fun (e : (DVersion × DVersion) × List String) => e.1.2)
        (m.migrations.filter (fun e => e.1.1 = v ∧ e.1.2 ≤ to_v)) hinj
      rw [migration_targets_loop, migration_walk]
      simp only [if_neg hv]
      rw [hhead]
      cases harg : (m.migrations.filter
          (fun e => e.1.1 = v ∧ e.1.2 ≤ to_v)).argmax
          (fun e => e.1.2) with
      | none => simp [Except.map]
      | some e =>
        simp only
        rw [ih]
        cases hw : migration_walk m to_v n e.1.2 with
        | none => simp
        | some r =>
          cases r with
          | ok rest => simp [Except.map, List.append_assoc]
          | error err => simp [Except.map]

/-- Once both identity fields are filled, the scan stops with them. -/
theorem running_loop_break (parseV : Line → Option SemVer) :
    ∀ (t : List Line) (v : SemVer) (f : Line),
      running_version_loop parseV t (some v) (some f) = .ok (some v, some f) := by
  intro t v f
  cases t <;> rfl

/-- With the version found, the scan takes the flavor from the first
remaining (trimmed) `VARIANT_ID=` line. -/
theorem running_loop_variant (parseV : Line → Option SemVer) :
    ∀ (t : List Line) (v : SemVer),
      running_version_loop parseV t (some v) none =
        match (t.map trimChars).find? (fun l => variantKey.isPrefixOf l) with
        | some fline => .ok (some v, some (fline.drop variantKey.length))
        | none => .ok (some v, none) := by
  intro t
  induction t with
  | nil => intro v; rfl
  | cons l rest ih =>
    intro v
    have hstep : running_version_loop parseV (l :: rest) (some v) none =
        (if variantKey.isPrefixOf (trimChars l) = true
         then running_version_loop parseV rest (some v)
           (some ((trimChars l).drop variantKey.length))
         else running_version_loop parseV rest (some v) none) := rfl
    by_cases hl : variantKey.isPrefixOf (trimChars l) = true
    · rw [hstep, if_pos hl, running_loop_break]
      simp only [List.map_cons]
      have hfind : List.find? (fun x => variantKey.isPrefixOf x)
          (trimChars l :: List.map trimChars rest) = some (trimChars l) := by
        rw [List.find?_cons]
        simp [hl]
      rw [hfind]
    · rw [hstep, if_neg hl]
      simp only [List.map_cons]
      have hbeq : variantKey.isPrefixOf (trimChars l) = false := by
        revert hl
        cases variantKey.isPrefixOf (trimChars l) <;> simp
      have hfind : List.find? (fun x => variantKey.isPrefixOf x)
          (trimChars l :: List.map trimChars rest) =
          List.find? (fun x => variantKey.isPrefixOf x)
            (List.map trimChars rest) := by
        rw [List.find?_cons]
        simp [hbeq]
      rw [hfind]
      exact ih v

/-- The scan over the whole file: the version comes from the first (trimmed)
`VERSION_ID=` line, the flavor from the first `VARIANT_ID=` line after it. -/
theorem running_loop_version (parseV : Line → Option SemVer) :
    ∀ (lines : List Line),
      running_version_loop parseV lines none none =
        match (lines.map trimChars).dropWhile
            (fun l => !versionKey.isPrefixOf l) with
        | [] => .ok (none, none)
        | vline :: rest =>
          match parseV (vline.drop versionKey.length) with
          | none => .error .VersionIdParse
          | some v =>
            match rest.find? (fun l => variantKey.isPrefixOf l) with
            | some fline => .ok (some v, some (fline.drop variantKey.length))
            | none => .ok (some v, none) := by
  intro lines
  induction lines with
  | nil => rfl
  | cons l rest ih =>
    have hstep : running_version_loop parseV (l :: rest) none none =
        (if versionKey.isPrefixOf (trimChars l) = true
         then match parseV ((trimChars l).drop versionKey.length) with
           | some v => running_version_loop parseV rest (some v) none
           | none => .error .VersionIdParse
         else running_version_loop parseV rest none none) := rfl
    by_cases hl : versionKey.isPrefixOf (trimChars l) = true
    · rw [hstep, if_pos hl]
      simp only [List.map_cons, List.dropWhile_cons, hl, Bool.not_true,
        Bool.false_eq_true, if_false]
      cases hp : parseV ((trimChars l).drop versionKey.length) with
      | none => rfl
      | some v => exact running_loop_variant parseV rest v
    · have hbeq : versionKey.isPrefixOf (trimChars l) = false := by
        revert hl
        cases versionKey.isPrefixOf (trimChars l) <;> simp
      rw [hstep, if_neg hl]
      simp only [List.map_cons, List.dropWhile_cons, hbeq, Bool.not_false, if_true]
      exact ih

/-- Shape of the `update_image` trace: either the function stops before the
boot-selection persist (trace is just the optional sleep), or the trace is
the optional sleep, then the persist, then whatever follows. -/
theorem update_image_shape (lz4 : List Nat → List Nat)
    (repo : String → Option (List Nat)) (u : Update) (jit : Option Nat)
    (rp : Option (List Nat)) (copyOk loadOk persistOk : Bool) :
    (update_image lz4 repo u jit rp copyOk loadOk persistOk).1 = jitterEvents jit ∨
    ∃ tail, (update_image lz4 repo u jit rp copyOk loadOk persistOk).1 =
      jitterEvents jit ++ Event.persistPartitionTable :: tail := by
  cases loadOk with
  | false => left; rfl
  | true =>
    cases persistOk with
    | false => left; rfl
    | true =>
      right
      rcases rp with _ | staged <;>
        rcases copyOk with _ | _ <;>
          cases hr : repo u.images.root <;>
            cases hb : repo u.images.boot <;>
              cases hh : repo u.images.hash <;>
                simp [update_image, write_target_to_disk, hr, hb, hh]

/-- C1, counterexample: the boot image target is NOT written verbatim.  On a
concrete run the repository delivers `[1, 2]` for the boot target, yet the
bytes written to the boot partition are the LZ4 decoder's output `[0]`; no
verbatim write of `[1, 2]` occurs anywhere in the trace, because
`write_target_to_disk` wraps every target in the decoder. -/
theorem claim_C1_counterexample :
    repoc updatec.images.boot = some [1, 2] ∧
    Event.writePartition .boot [0] ∈
      (update_image lz4c repoc updatec none none true true true).1 ∧
    Event.writePartition .boot [1, 2] ∉
      (update_image lz4c repoc updatec none none true true true).1 := by
  decide

/-- C1 (amended): every byte stream that `update_image` writes to a
partition of the inactive set has passed through the LZ4 streaming decoder
applied to the bytes the repository delivered for the corresponding target —
for boot and hash always, and for root unless the staged temporary file was
copied (`fs::copy`) instead. -/
theorem claim_C1_all_targets_decoded (lz4 : List Nat → List Nat)
    (repo : String → Option (List Nat)) (u : Update) (jit : Option Nat)
    (rp : Option (List Nat)) (copyOk loadOk persistOk : Bool)
    (slot : PartSlot) (bytes : List Nat)
    (hmem : Event.writePartition slot bytes ∈
      (update_image lz4 repo u jit rp copyOk loadOk persistOk).1) :
    (slot = .boot → ∃ s, repo u.images.boot = some s ∧ bytes = lz4 s) ∧
    (slot = .hash → ∃ s, repo u.images.hash = some s ∧ bytes = lz4 s) ∧
    (slot = .root → (rp = some bytes ∧ copyOk = true) ∨
      ∃ s, repo u.images.root = some s ∧ bytes = lz4 s) := by
  rcases jit with _ | jv <;>
    cases loadOk <;> cases persistOk <;>
      rcases rp with _ | staged <;> cases copyOk <;>
        cases hr : repo u.images.root <;>
          cases hb : repo u.images.boot <;>
            cases hh : repo u.images.hash <;>
              simp [update_image, write_target_to_disk, jitterEvents, hr, hb, hh]
                at hmem ⊢ <;>
                aesop

/-- Witness for the amended C1 at a concrete input. -/
theorem claim_C1_witness :
    (PartSlot.boot = PartSlot.boot →
      ∃ s, repoc updatec.images.boot = some s ∧ [0] = lz4c s) ∧
    (PartSlot.boot = PartSlot.hash →
      ∃ s, repoc updatec.images.hash = some s ∧ [0] = lz4c s) ∧
    (PartSlot.boot = PartSlot.root →
      ((none : Option (List Nat)) = some [0] ∧ true = true) ∨
      ∃ s, repoc updatec.images.root = some s ∧ [0] = lz4c s) :=
  claim_C1_all_targets_decoded lz4c repoc updatec none none true true true
    .boot [0] (by decide)

/-- C8: in every execution of `update_image`, the boot-selection state with
the inactive slot cleared is persisted strictly before any write to the
inactive root, boot or hash partition: every partition-write event in the
trace is preceded by the persist event. -/
theorem claim_C8_persist_before_writes (lz4 : List Nat → List Nat)
    (repo : String → Option (List Nat)) (u : Update) (jit : Option Nat)
    (rp : Option (List Nat)) (copyOk loadOk persistOk : Bool)
    (i : Nat) (slot : PartSlot) (bytes : List Nat)
    (hi : (update_image lz4 repo u jit rp copyOk loadOk persistOk).1.get? i =
      some (Event.writePartition slot bytes)) :
    ∃ j, j < i ∧
      (update_image lz4 repo u jit rp copyOk loadOk persistOk).1.get? j =
        some Event.persistPartitionTable := by
  rcases update_image_shape lz4 repo u jit rp copyOk loadOk persistOk with hsh | ⟨tail, hsh⟩
  · rw [hsh] at hi
    rcases jit with _ | jv
    · simp [jitterEvents] at hi
    · simp only [jitterEvents] at hi
      match i, hi with
      | 0, hi => simp at hi
      | n + 1, hi => simp at hi
  · rw [hsh] at hi ⊢
    rcases jit with _ | jv
    · simp only [jitterEvents, List.nil_append] at hi ⊢
      match i, hi with
      | 0, hi => simp at hi
      | n + 1, hi => exact ⟨0, Nat.succ_pos _, rfl⟩
    · simp only [jitterEvents, List.singleton_append] at hi ⊢
      match i, hi with
      | 0, hi => simp at hi
      | 1, hi => simp at hi
      | n + 2, hi => exact ⟨1, by omega, rfl⟩

/-- Witness for C8 at a concrete input: the root-partition write sits at
index 1 of the trace, and the persist is found strictly before it. -/
theorem claim_C8_witness :
    ∃ j, j < 1 ∧
      (update_image lz4c repoc updatec none none true true true).1.get? j =
        some Event.persistPartitionTable :=
  claim_C8_persist_before_writes lz4c repoc updatec none none true true true
    1 .root [0] (by decide)

/-- C2, counterexample: `migration_targets` itself is not symmetric.  With
the single edge `(1.0, 1.1) -> ["m"]`, the forward call succeeds with
`["m"]` (in two loop iterations), while the reversed call fails immediately
with the missing-migration error: no edge leaves `1.1` with target `≤ 1.0`. -/
theorem claim_C2_counterexample :
    migration_targets 2 ⟨1, 0⟩ ⟨1, 1⟩ manifestMig = some (.ok ["m"]) ∧
    migration_targets 2 ⟨1, 1⟩ ⟨1, 0⟩ manifestMig =
      some (.error (.MissingMigration ⟨1, 1⟩ ⟨1, 0⟩)) := by
  decide

/-- C2 (amended): the planner as actually invoked by `retrieve_migrations`
is symmetric in the two data-store versions, because that call site first
normalizes the pair to `(min, max)` — for every fuel, manifest and version
pair, swapping the arguments of the normalized invocation changes nothing. -/
theorem claim_C2_normalized_symmetric (fuel : Nat) (a b : DVersion)
    (m : Manifest) :
    planned_migrations fuel a b m = planned_migrations fuel b a m := by
  unfold planned_migrations
  rw [min_comm, max_comm]

/-- C4, counterexample: with a host at `1.25.0` and a manifest whose sole
candidate (matching flavor and architecture) has `max_version = 1.20.0` and
version `1.20.0 ≤ 1.25.0`, selection does NOT return none: the candidate
passes the self-consistency filter and the recovery branch
(`current > max_version`) returns it. -/
theorem claim_C4_counterexample :
    (∀ u ∈ manifestCap.updates, u.max_version = ⟨1, 20, 0⟩) ∧
    (∀ u ∈ manifestCap.updates, ¬ (⟨1, 25, 0⟩ : SemVer) < u.version) ∧
    update_required manifestCap ⟨1, 25, 0⟩ "thar-aws-eks" none = some updCap := by
  decide

/-- C4 (amended): the over-ceiling host gets nothing precisely when no
candidate survives the self-consistency filter: if every update matching the
host's flavor and architecture has `version > max_version` (as in the
repository's regret test data, where every candidate is capped at `1.20.0`
below its own `1.25.0` version), selection with no forced version returns
none. -/
theorem claim_C4_regret_none (m : Manifest) (v : SemVer) (flavor : String)
    (h : ∀ u ∈ m.updates, u.flavor = flavor → u.arch = TARGET_ARCH →
      u.max_version < u.version) :
    update_required m v flavor none = none := by
  have hfil : m.updates.filter
      (fun u => u.flavor = flavor ∧ u.arch = TARGET_ARCH ∧
        u.version ≤ u.max_version) = [] := by
    rw [List.filter_eq_nil_iff]
    intro u hu
    simp only [decide_eq_true_eq]
    intro hcon
    rcases hcon with ⟨hf, ha, hle⟩
    exact absurd hle (not_le.mpr (h u hu hf ha))
  unfold update_required
  rw [hfil]
  rfl

/-- Witness for the amended C4: the regret manifest (host `1.25.0`, cap
`1.20.0`, candidate version `1.25.0`) yields no update. -/
theorem claim_C4_witness :
    update_required manifestRegret ⟨1, 25, 0⟩ "thar-aws-eks" none = none :=
  claim_C4_regret_none manifestRegret ⟨1, 25, 0⟩ "thar-aws-eks" (by decide)

/-- C7, counterexample: the two keys are NOT accepted in any order.  With
`VARIANT_ID=` first and `VERSION_ID=` second — both keys present and
parseable — `running_version` fails with the missing-identity error, while
the same two lines in the opposite order succeed. -/
theorem claim_C7_counterexample :
    running_version parseSemVer osReleaseSwapped = .error .VersionIdNotFound ∧
    running_version parseSemVer osReleaseInOrder =
      .ok (⟨1, 0, 0⟩, "aws".toList) := by
  decide

/-- C7 (amended): the version is taken from the first `VERSION_ID=` line;
the variant only from the first `VARIANT_ID=` line occurring after that
line (`VARIANT_ID=` lines before the first `VERSION_ID=` line are ignored);
the operation fails unless a `VERSION_ID=` line exists, parses, and some
`VARIANT_ID=` line follows it. -/
theorem claim_C7_first_version_then_variant (parseV : Line → Option SemVer)
    (lines : List Line) :
    running_version parseV lines = running_version_amended parseV lines := by
  unfold running_version running_version_amended
  rw [running_loop_version]
  cases hdw : (lines.map trimChars).dropWhile
      (fun l => !versionKey.isPrefixOf l) with
  | nil => rfl
  | cons vline rest =>
    simp only
    cases hp : parseV (vline.drop versionKey.length) with
    | none => rfl
    | some v =>
      cases hf : rest.find? (fun l => variantKey.isPrefixOf l) with
      | none => rfl
      | some fline => rfl

/-- C3: if some update matches the host's flavor and architecture, is newer
than the running version and respects its own `max_version`, then selection
with no forced version returns an update — itself such a candidate — whose
version is greatest among all such candidates. -/
theorem claim_C3_greatest_candidate (m : Manifest) (v : SemVer) (flavor : String)
    (h : ∃ u ∈ m.updates, u.flavor = flavor ∧ u.arch = TARGET_ARCH ∧
      v < u.version ∧ u.version ≤ u.max_version) :
    ∃ r, update_required m v flavor none = some r ∧
      r.flavor = flavor ∧ r.arch = TARGET_ARCH ∧ v < r.version ∧
      r.version ≤ r.max_version ∧
      ∀ u ∈ m.updates, u.flavor = flavor → u.arch = TARGET_ARCH →
        v < u.version → u.version ≤ u.max_version → u.version ≤ r.version := by
  classical
  obtain ⟨c, hc, hcf, hca, hcv, hcm⟩ := h
  have hcfl : c ∈ m.updates.filter
      (fun u => u.flavor = flavor ∧ u.arch = TARGET_ARCH ∧
        u.version ≤ u.max_version) := by
    rw [List.mem_filter]
    refine ⟨hc, ?_⟩
    simp only [decide_eq_true_eq]
    exact ⟨hcf, hca, hcm⟩
  haveI htot : IsTotal Update (fun a b => b.version ≤ a.version) :=
    ⟨fun a b => (le_total a.version b.version).symm⟩
  haveI htr : IsTrans Update (fun a b => b.version ≤ a.version) :=
    ⟨fun _ _ _ hab hbc => le_trans hbc hab⟩
  have hcs : c ∈ (m.updates.filter
      (fun u => u.flavor = flavor ∧ u.arch = TARGET_ARCH ∧
        u.version ≤ u.max_version)).insertionSort
      (fun a b => b.version ≤ a.version) :=
    (List.mem_insertionSort _).mpr hcfl
  have hQc : (fun u : Update =>
      decide (v < u.version ∨ u.max_version < v)) c = true := by
    simp only [decide_eq_true_eq]
    exact Or.inl hcv
  have hsome : (((m.updates.filter
      (fun u => u.flavor = flavor ∧ u.arch = TARGET_ARCH ∧
        u.version ≤ u.max_version)).insertionSort
      (fun a b => b.version ≤ a.version)).find?
      (fun u => decide (v < u.version ∨ u.max_version < v))).isSome = true :=
    List.find?_isSome.mpr ⟨c, hcs, hQc⟩
  obtain ⟨r, hr⟩ := Option.isSome_iff_exists.mp hsome
  have hsorted := List.sorted_insertionSort (fun a b => b.version ≤ a.version)
    (m.updates.filter (fun u => u.flavor = flavor ∧ u.arch = TARGET_ARCH ∧
      u.version ≤ u.max_version))
  obtain ⟨hrmem, hQr, hmax⟩ := find_desc_max Update.version
    (fun u => decide (v < u.version ∨ u.max_version < v)) _ hsorted hr
  have hrfl := (List.mem_insertionSort _).mp hrmem
  rcases List.mem_filter.mp hrfl with ⟨hrm, hrp⟩
  simp only [decide_eq_true_eq] at hrp hQr
  obtain ⟨hrf, hra, hrvm⟩ := hrp
  have hvr : v < r.version := by
    rcases hQr with hvr | hmv
    · exact hvr
    · exfalso
      have hcler : c.version ≤ r.version := hmax c hcs hQc
      have : v < v := lt_of_lt_of_le hcv
        (le_trans hcler (le_trans hrvm (le_of_lt hmv)))
      exact lt_irrefl v this
  refine ⟨r, ?_, hrf, hra, hvr, hrvm, ?_⟩
  · unfold update_required
    simp only
    exact hr
  · intro u hu huf hua huv hum
    have hufl : u ∈ m.updates.filter
        (fun u => u.flavor = flavor ∧ u.arch = TARGET_ARCH ∧
          u.version ≤ u.max_version) := by
      rw [List.mem_filter]
      refine ⟨hu, ?_⟩
      simp only [decide_eq_true_eq]
      exact ⟨huf, hua, hum⟩
    have hus : u ∈ (m.updates.filter
        (fun u => u.flavor = flavor ∧ u.arch = TARGET_ARCH ∧
          u.version ≤ u.max_version)).insertionSort
        (fun a b => b.version ≤ a.version) :=
      (List.mem_insertionSort _).mpr hufl
    exact hmax u hus (by simp only [decide_eq_true_eq]; exact Or.inl huv)

/-- Witness for C3: with candidates `1.13.0` and `1.15.0` (ceiling `1.20.0`)
and a host at `1.10.0`, selection returns a candidate of maximal version. -/
theorem claim_C3_witness :
    ∃ r, update_required manifestSel ⟨1, 10, 0⟩ "aws" none = some r ∧
      r.flavor = "aws" ∧ r.arch = TARGET_ARCH ∧ (⟨1, 10, 0⟩ : SemVer) < r.version ∧
      r.version ≤ r.max_version ∧
      ∀ u ∈ manifestSel.updates, u.flavor = "aws" → u.arch = TARGET_ARCH →
        (⟨1, 10, 0⟩ : SemVer) < u.version → u.version ≤ u.max_version →
          u.version ≤ r.version :=
  claim_C3_greatest_candidate manifestSel ⟨1, 10, 0⟩ "aws"
    ⟨updSel15, by decide, by decide⟩

/-- C5: with a seed `s`, `update_ready` answers `true` exactly when (a) some
wave entry has key `≤ s` and the one with the greatest such key has started
(`time ≤ now`), or (b) no entry has key `≤ s` but the wave map is non-empty
and its greatest-key entry has started; an empty wave map is an error (not
`false`), and a missing seed is an error. -/
theorem claim_C5_update_ready_iff (u : Update) (c : Config) (now : Int)
    (s : Nat) (hseed : c.seed = some s) (hwf : WavesWF u.waves) :
    (u.update_ready c now = .ok true ↔
      ((∃ e ∈ u.waves, e.1 ≤ s ∧ e.2 ≤ now ∧
          ∀ x ∈ u.waves, x.1 ≤ s → x.1 ≤ e.1) ∨
       ((∀ x ∈ u.waves, s < x.1) ∧
        ∃ e ∈ u.waves, e.2 ≤ now ∧ ∀ x ∈ u.waves, x.1 ≤ e.1))) ∧
    (u.waves = [] → u.update_ready c now = .error .NoWave) ∧
    (∀ c' : Config, c'.seed = none → u.update_ready c' now = .error .MissingSeed) := by
  have hwf' : (u.waves.filter (fun p => p.1 ≤ s)).Pairwise
      (fun a b => a.1 < b.1) := List.Pairwise.filter _ hwf
  refine ⟨?_, ?_, ?_⟩
  · cases hlast : (u.waves.filter (fun p => p.1 ≤ s)).getLast? with
    | some e =>
      obtain ⟨k, w⟩ := e
      have hcomp : u.update_ready c now = .ok (decide (w ≤ now)) := by
        unfold Update.update_ready
        rw [hseed]
        simp only
        rw [hlast]
      rw [hcomp]
      obtain ⟨hmemf, hmaxf⟩ := getLast_sorted_max hwf' hlast
      rcases List.mem_filter.mp hmemf with ⟨hmem, hkle⟩
      simp only [decide_eq_true_eq] at hkle
      simp only [Except.ok.injEq, decide_eq_true_eq]
      constructor
      · intro hw
        exact Or.inl ⟨(k, w), hmem, hkle, hw, fun x hx hxs =>
          hmaxf x (List.mem_filter.mpr ⟨hx, by simpa using hxs⟩)⟩
      · rintro (⟨e', hmem', hle', hnow', hmax'⟩ | ⟨hall, _⟩)
        · have h1 : e'.1 ≤ k := hmaxf e'
            (List.mem_filter.mpr ⟨hmem', by simpa using hle'⟩)
          have h2 : k ≤ e'.1 := hmax' (k, w) hmem hkle
          have : e' = (k, w) :=
            sorted_key_inj hwf e' hmem' (k, w) hmem (le_antisymm h1 h2)
          rw [this] at hnow'
          exact hnow'
        · exact absurd hkle (not_le.mpr (hall (k, w) hmem))
    | none =>
      have hnil : u.waves.filter (fun p => p.1 ≤ s) = [] :=
        List.getLast?_eq_none_iff.mp hlast
      have hgt : ∀ x ∈ u.waves, s < x.1 := by
        intro x hx
        have := List.filter_eq_nil_iff.mp hnil x hx
        simp only [decide_eq_true_eq] at this
        omega
      cases hlast2 : u.waves.getLast? with
      | some e =>
        obtain ⟨k, w⟩ := e
        have hcomp : u.update_ready c now = .ok (decide (w ≤ now)) := by
          unfold Update.update_ready
          rw [hseed]
          simp only
          rw [hnil]
          simp only [List.getLast?_nil]
          rw [hlast2]
        rw [hcomp]
        obtain ⟨hmem, hmax⟩ := getLast_sorted_max hwf hlast2
        simp only [Except.ok.injEq, decide_eq_true_eq]
        constructor
        · intro hw
          exact Or.inr ⟨hgt, (k, w), hmem, hw, hmax⟩
        · rintro (⟨e', hmem', hle', _, _⟩ | ⟨_, e', hmem', hnow', hmax'⟩)
          · exact absurd hle' (not_le.mpr (hgt e' hmem'))
          · have h1 : e'.1 ≤ k := hmax e' hmem'
            have h2 : k ≤ e'.1 := hmax' (k, w) hmem
            have : e' = (k, w) :=
              sorted_key_inj hwf e' hmem' (k, w) hmem (le_antisymm h1 h2)
            rw [this] at hnow'
            exact hnow'
      | none =>
        have hnil2 : u.waves = [] := List.getLast?_eq_none_iff.mp hlast2
        have hcomp : u.update_ready c now = .error .NoWave := by
          unfold Update.update_ready
          rw [hseed]
          simp only
          rw [hnil, hnil2]
          simp only [List.getLast?_nil]
        rw [hcomp]
        simp [hnil2]
  · intro hnil
    unfold Update.update_ready
    rw [hseed, hnil]
    rfl
  · intro c' hc'
    unfold Update.update_ready
    rw [hc']

/-- Witness for C5: seed 3, waves at keys 0 (started) and 1024 (future):
ready. -/
theorem claim_C5_witness :
    updateWaves.update_ready configSeed3 10 = .ok true :=
  ((claim_C5_update_ready_iff updateWaves configSeed3 10 3 rfl (by decide)).1).mpr
    (Or.inl (by decide))

/-- C6: for key-distinct migration maps and `start ≤ target`, the planner's
while loop computes exactly the walk the specification describes — greedy
greatest-`t` steps with `t ≤ target`, artifact lists appended in order,
stopping at the target, and the missing-migration error naming the current
and target versions when no edge qualifies (step-indexed by the same fuel on
both sides). -/
theorem claim_C6_planner_is_greedy_walk (m : Manifest) (hwf : MigrationsWF m)
    (from_v to_v : DVersion) (hle : from_v ≤ to_v) (fuel : Nat) :
    migration_targets fuel from_v to_v m = migration_walk m to_v fuel from_v := by
  unfold migration_targets
  rw [migration_loop_eq_walk m hwf to_v fuel from_v []]
  cases hw : migration_walk m to_v fuel from_v with
  | none => rfl
  | some r =>
    cases r with
    | ok rest => simp [Except.map]
    | error e => simp [Except.map]

/-- Witness for C6 at a concrete manifest and version pair. -/
theorem claim_C6_witness :
    migration_targets 2 ⟨1, 0⟩ ⟨1, 1⟩ manifestMig =
      migration_walk manifestMig ⟨1, 1⟩ 2 ⟨1, 0⟩ :=
  claim_C6_planner_is_greedy_walk manifestMig (by decide) ⟨1, 0⟩ ⟨1, 1⟩
    (by decide) 2

/-- C9: when every migration edge goes strictly upward, the planner's loop
terminates within `|edges| + 1` iterations: with that much fuel it yields a
definite result (success or the missing-migration error) — each greedy step
strictly increases the current version, so the number of edge targets above
it strictly decreases. -/
theorem claim_C9_planner_terminates (m : Manifest) (from_v to_v : DVersion)
    (hedges : ∀ e ∈ m.migrations, e.1.1 < e.1.2) (hle : from_v ≤ to_v) :
    ∃ r, migration_targets (m.migrations.length + 1) from_v to_v m = some r := by
  suffices h : ∀ (fuel : Nat) (v : DVersion) (acc : List String),
      m.migrations.countP (fun e => decide (v < e.1.2)) < fuel →
      ∃ r, migration_targets_loop m to_v fuel v acc = some r by
    refine h _ from_v [] ?_
    have := List.countP_le_length (fun e : (DVersion × DVersion) × List String =>
      decide (from_v < e.1.2)) (l := m.migrations)
    omega
  intro fuel
  induction fuel with
  | zero => intro v acc hcnt; omega
  | succ n ih =>
    intro v acc hcnt
    have hstep : migration_targets_loop m to_v (n + 1) v acc =
        (if v = to_v then some (.ok acc)
         else match ((m.migrations.filter
             (fun e => e.1.1 = v ∧ e.1.2 ≤ to_v)).insertionSort
             (fun a b => b.1.2 ≤ a.1.2)).head? with
           | some transition =>
             migration_targets_loop m to_v n transition.1.2 (acc ++ transition.2)
           | none => some (.error (.MissingMigration v to_v))) := rfl
    by_cases hv : v = to_v
    · exact ⟨.ok acc, by rw [hstep, if_pos hv]⟩
    · rw [hstep, if_neg hv]
      cases hhead : ((m.migrations.filter
          (fun e => e.1.1 = v ∧ e.1.2 ≤ to_v)).insertionSort
          (fun a b => b.1.2 ≤ a.1.2)).head? with
      | none => exact ⟨_, rfl⟩
      | some t =>
        have htm : t ∈ m.migrations ∧ t.1.1 = v ∧ t.1.2 ≤ to_v := by
          rcases List.head?_eq_some_iff.mp hhead with ⟨tl, hsort⟩
          have : t ∈ (m.migrations.filter
              (fun e => e.1.1 = v ∧ e.1.2 ≤ to_v)).insertionSort
              (fun a b => b.1.2 ≤ a.1.2) := by
            rw [hsort]; exact List.mem_cons_self _ _
          rcases List.mem_filter.mp ((List.mem_insertionSort _).mp this)
            with ⟨hmem, hprop⟩
          simp only [decide_eq_true_eq] at hprop
          exact ⟨hmem, hprop⟩
        have hvt : v < t.1.2 := by
          have := hedges t htm.1
          rw [htm.2.1] at this
          exact this
        have hdec : m.migrations.countP (fun e => decide (t.1.2 < e.1.2)) <
            m.migrations.countP (fun e => decide (v < e.1.2)) := by
          refine countP_lt_countP m.migrations _ _ ?_ t htm.1 ?_ ?_
          · intro x _ hx
            simp only [decide_eq_true_eq] at hx ⊢
            exact lt_trans hvt hx
          · simp only [decide_eq_true_eq]
            exact hvt
          · simp only [decide_eq_true_eq, not_lt]
            exact le_refl _
        obtain ⟨r, hr⟩ := ih t.1.2 (acc ++ t.2)
          (lt_of_lt_of_le hdec (Nat.lt_succ_iff.mp hcnt))
        exact ⟨r, hr⟩

/-- Witness for C9 at a concrete manifest: one upward edge, fuel 2. -/
theorem claim_C9_witness :
    ∃ r, migration_targets (manifestMig.migrations.length + 1) ⟨1, 0⟩ ⟨1, 1⟩
      manifestMig = some r :=
  claim_C9_planner_terminates manifestMig ⟨1, 0⟩ ⟨1, 1⟩ (by decide) (by decide)

/-- C10, counterexample: `jitter` can return `Some 0`.  With two waves at
keys 0 and 100 sharing one activation time, seed 50 and `now` before that
time, the jitter is `Some ((t - t) as u64) = Some 0 < 2`, so the sampling
range `[1, 0)` of `update_image` is empty (and `gen_range` panics). -/
theorem claim_C10_counterexample :
    updateJitter0.jitter configSeed50 5 = some 0 ∧ ¬ 2 ≤ (0 : Nat) := by
  decide

/-- C10 (amended): `j ≥ 2` holds for every `Some j` that `jitter` returns
provided consecutive wave entries' activation times are at least 2 seconds
and less than `2^64` seconds apart (and wave keys are in range, as the
parser guarantees); without that spacing the jitter can be 0 or 1 and the
half-open sampling range `[1, j)` is empty. -/
theorem claim_C10_jitter_at_least_two (u : Update) (c : Config) (now : Int)
    (j : Nat) (hwf : WavesWF u.waves)
    (hkeys : ∀ e ∈ u.waves, e.1 < MAX_SEED)
    (hgap : List.Chain' (fun a b => 2 ≤ b.2 - a.2 ∧ b.2 - a.2 < 2 ^ 64) u.waves)
    (hj : u.jitter c now = some j) : 2 ≤ j := by
  unfold Update.jitter at hj
  cases hc : c.seed with
  | none =>
    rw [hc] at hj
    simp at hj
  | some s =>
    rw [hc] at hj
    simp only at hj
    have hfilter2 : u.waves.filter (fun p => s < p.1 ∧ p.1 < MAX_SEED) =
        u.waves.filter (fun p => s < p.1) := by
      apply List.filter_congr
      intro x hx
      have hx2 := hkeys x hx
      exact decide_eq_decide.mpr ⟨fun h => h.1, fun h => ⟨h, hx2⟩⟩
    rw [hfilter2, filter_gt_eq_dropWhile s u.waves hwf,
      filter_le_eq_takeWhile s u.waves hwf] at hj
    cases hprev : (u.waves.takeWhile (fun p => p.1 ≤ s)).getLast? with
    | none =>
      rw [hprev] at hj
      simp at hj
    | some prevE =>
      cases hnext : (u.waves.dropWhile (fun p => p.1 ≤ s)).head? with
      | none =>
        rw [hprev, hnext] at hj
        simp at hj
      | some nextE =>
        obtain ⟨k1, start⟩ := prevE
        obtain ⟨k2, stop⟩ := nextE
        rw [hprev, hnext] at hj
        simp only at hj
        by_cases hnow : now < stop
        · rw [if_pos hnow] at hj
          have hchain : List.Chain'
              (fun a b : Nat × Int => 2 ≤ b.2 - a.2 ∧ b.2 - a.2 < 2 ^ 64)
              (u.waves.takeWhile (fun p => p.1 ≤ s) ++
                u.waves.dropWhile (fun p => p.1 ≤ s)) := by
            rw [List.takeWhile_append_dropWhile]
            exact hgap
          rcases List.chain'_append.mp hchain with ⟨_, _, hrel⟩
          have hR := hrel (k1, start) (by rw [hprev]; rfl) (k2, stop)
            (by rw [hnext]; rfl)
          have hj' : j = u64_of_i64 (stop - start) := by
            injection hj with hj
            exact hj.symm
          rw [hj']
          unfold u64_of_i64
          rw [Int.emod_eq_of_lt (by omega) (by omega)]
          omega
        · rw [if_neg hnow] at hj
          simp at hj

/-- Witness for the amended C10: waves 10 seconds apart, seed between the
keys, `now` before the later wave: jitter 10 ≥ 2. -/
theorem claim_C10_witness : 2 ≤ 10 ∧ updateJitter10.jitter configSeed50 15 = some 10 :=
  ⟨claim_C10_jitter_at_least_two updateJitter10 configSeed50 15 10 (by decide)
    (by decide)
    (by norm_num [updateJitter10, List.chain'_cons, List.chain'_singleton])
    (by decide), by decide⟩
